import Mathlib

/-!
Shallow embedding of the qubit-mapping repository (interaction-graph
construction, initial placement, and the MCPE SWAP router) together with
theorems settling the specification claims.

Python floats appear in the router only as exact integers, `float('inf')`
and the `nan` produced by `inf - inf`; they are modelled exactly by `PyVal`.
Python object identity of `Gate` records is modelled by an explicit integer
id (`gid`), the gate's index in the two-qubit stream: each record is created
once and shared by both endpoint queues, so identity coincides with `gid`
equality.  Python `dict`s are modelled as insertion-ordered association
lists; a lookup of a key that the code never misses is totalised with a
default (the concrete runs below never hit the default).
-/

/-- Exact model of the Python numeric values reached by the router:
integers, `float('inf')`, `-inf` and `nan`. -/
inductive PyVal where
  | fin (z : ℤ)
  | pinf
  | ninf
  | nan
deriving DecidableEq

/-- Python subtraction on `PyVal` (`inf - inf = nan`, etc.). -/
def PyVal.sub : PyVal → PyVal → PyVal
  | nan, _ => nan
  | _, nan => nan
  | fin a, fin b => fin (a - b)
  | fin _, pinf => ninf
  | fin _, ninf => pinf
  | pinf, fin _ => pinf
  | pinf, pinf => nan
  | pinf, ninf => pinf
  | ninf, fin _ => ninf
  | ninf, pinf => ninf
  | ninf, ninf => nan

/-- Python addition on `PyVal` (`inf + (-inf) = nan`, etc.). -/
def PyVal.add : PyVal → PyVal → PyVal
  | nan, _ => nan
  | _, nan => nan
  | fin a, fin b => fin (a + b)
  | fin _, pinf => pinf
  | fin _, ninf => ninf
  | pinf, fin _ => pinf
  | pinf, pinf => pinf
  | pinf, ninf => nan
  | ninf, fin _ => ninf
  | ninf, pinf => nan
  | ninf, ninf => ninf

/-- Python `>` on `PyVal`; every comparison against `nan` is `False`. -/
def PyVal.gt : PyVal → PyVal → Bool
  | nan, _ => false
  | _, nan => false
  | fin a, fin b => decide (b < a)
  | fin _, pinf => false
  | fin _, ninf => true
  | pinf, fin _ => true
  | pinf, pinf => false
  | pinf, ninf => true
  | ninf, _ => false

/-- `swap.py` `Gate`: control and target logical qubits.  `gid` is the
gate's index in the two-qubit stream and models Python object identity
(each `Gate` object is pushed once into both endpoint queues). -/
structure Gate where
  gid : ℕ
  control : ℕ
  target : ℕ
deriving DecidableEq

/-- An entry of the router's `operations` log: `('cx', c, t)` or
`('swap', q1, q2)`, both logical-qubit addressed. -/
inductive Op where
  | cx (c t : ℕ)
  | swp (q1 q2 : ℕ)
deriving DecidableEq

/-- The coupling graph exactly as `swap.py` holds it: an insertion-ordered
dict from node to neighbour list (the `'Qi'` labels are kept as the
numbers they denote). -/
def CouplingGraph := List (ℕ × List ℕ)

/-- Association-list lookup on ℕ keys (Python dict access). -/
def mlookup : List (ℕ × ℕ) → ℕ → Option ℕ
  | [], _ => none
  | e :: rest, q => if e.1 = q then some e.2 else mlookup rest q

/-- Totalised dict access `m[q]`; the router never misses a key. -/
def lookupD (m : List (ℕ × ℕ)) (q : ℕ) : ℕ :=
  (mlookup m q).getD 0

/-- Neighbour list `coupling_graph[node]`; a missing node is modelled as
having no neighbours (the code never looks one up). -/
def neighborsOf : CouplingGraph → ℕ → List ℕ
  | [], _ => []
  | e :: rest, i => if e.1 = i then e.2 else neighborsOf rest i

/-- `swap.py` `check_connectivity`: whether the mapped physical operands
of the gate are adjacent in the coupling graph. -/
def checkConnectivity (c t : ℕ) (m : List (ℕ × ℕ)) (g : CouplingGraph) : Bool :=
  let pos1 := lookupD m c
  let pos2 := lookupD m t
  decide (pos2 ∈ neighborsOf g pos1)

/-- One matrix-cell assignment `d[a][b] = v`. -/
def matUpdate (d : ℕ → ℕ → PyVal) (a b : ℕ) (v : PyVal) : ℕ → ℕ → PyVal :=
  fun x y => if x = a ∧ y = b then v else d x y

/-- The `distances` matrix exactly as `schedule_quantum_circuit` fills it:
initialised to `float('inf')`, then `d[i][i] = 0` for every dict key and
`d[i][j] = d[j][i] = 1` for every listed adjacency.  No other cell is
ever written. -/
def fillDistances (g : CouplingGraph) : ℕ → ℕ → PyVal :=
  g.foldl
    (fun d e =>
      let d1 := matUpdate d e.1 e.1 (.fin 0)
      e.2.foldl (fun dd j => matUpdate (matUpdate dd e.1 j (.fin 1)) j e.1 (.fin 1)) d1)
    (fun _ _ => .pinf)

/-- The mapping update of `swap.py` lines 147-152 (also the scratch copy
inside `calculate_mcpe_cost`): every logical qubit whose image is `p1`
moves to `p2` and vice versa. -/
def swapImages (m : List (ℕ × ℕ)) (p1 p2 : ℕ) : List (ℕ × ℕ) :=
  m.map fun qp =>
    if qp.2 = p1 then (qp.1, p2)
    else if qp.2 = p2 then (qp.1, p1)
    else qp

/-- `swap.py` `calculate_mcpe_cost`: sum over the active gates of
`old_dist - new_dist` between the real and the exchanged mapping. -/
def calculateMcpeCost (sw : ℕ × ℕ) (active : List Gate) (m : List (ℕ × ℕ))
    (d : ℕ → ℕ → PyVal) : PyVal :=
  let temp := swapImages m sw.1 sw.2
  active.foldl
    (fun score g =>
      score.add ((d (lookupD m g.control) (lookupD m g.target)).sub
        (d (lookupD temp g.control) (lookupD temp g.target))))
    (.fin 0)

example : PyVal.sub .pinf .pinf = .nan := rfl
example : PyVal.gt (PyVal.sub .pinf (.fin 1)) (.fin 0) = true := rfl
example : PyVal.gt .nan (.fin 0) = false := rfl

/-- The mutable state of `schedule_quantum_circuit`'s scheduling loop. -/
structure RouterState where
  mapping : List (ℕ × ℕ)
  fron : List Gate
  act : List Gate
  frozen : ℕ → Bool
  dlist : ℕ → List Gate
  executed : List Gate
  ops : List Op

/-- Python `list.remove`: drop the first occurrence. -/
def pyRemove : List Gate → Gate → List Gate
  | [], _ => []
  | x :: xs, g => if x = g then xs else x :: pyRemove xs g

/-- `dlist[q].pop_front()`. -/
def popFront (dl : ℕ → List Gate) (q : ℕ) : ℕ → List Gate :=
  fun x => if x = q then (dl q).tail else dl x

/-- `dlist[q].push_back(gate)`. -/
def pushBack (dl : ℕ → List Gate) (q : ℕ) (g : Gate) : ℕ → List Gate :=
  fun x => if x = q then dl q ++ [g] else dl x

/-- One iteration of the scan loop body for qubit `q` (`swap.py` lines
89-100): peek the head gate of an unfrozen qubit; move it from the
frontier to the active list if the other endpoint already registered it,
otherwise register it in the frontier; freeze the qubit. -/
def scanQubit (s : RouterState) (q : ℕ) : RouterState :=
  if s.frozen q then s
  else
    match (s.dlist q).head? with
    | none => s
    | some g =>
      if g ∈ s.fron then
        { s with
            fron := pyRemove s.fron g
            act := if g ∈ s.act then s.act else s.act ++ [g]
            frozen := fun x => if x = q then true else s.frozen x }
      else
        { s with
            fron := if g ∈ s.fron then s.fron else s.fron ++ [g]
            frozen := fun x => if x = q then true else s.frozen x }

/-- The scan loop `for q in range(6)` (`nscan` is the literal `6`). -/
def scanPhase (s : RouterState) (nscan : ℕ) : RouterState :=
  (List.range nscan).foldl scanQubit s

/-- The body of the execute loop for one active gate: if its mapped
operands are adjacent, pop it from both dependency lists, log the `cx`,
record it executed and unfreeze both qubits; otherwise leave the state
unchanged.  The second component accumulates `gates_to_remove`. -/
def execStep (g : CouplingGraph) (p : RouterState × List Gate) (gate : Gate) :
    RouterState × List Gate :=
  if checkConnectivity gate.control gate.target p.1.mapping g then
    ({ p.1 with
        dlist := popFront (popFront p.1.dlist gate.control) gate.target
        ops := p.1.ops ++ [Op.cx gate.control gate.target]
        executed := p.1.executed ++ [gate]
        frozen := fun x =>
          if x = gate.control ∨ x = gate.target then false else p.1.frozen x },
     p.2 ++ [gate])
  else p

/-- The execute loop (`swap.py` lines 102-116): iterate the active list
executing each gate that satisfies the connectivity test; afterwards
remove the executed gates from the active list. -/
def executePhase (g : CouplingGraph) (s : RouterState) : RouterState :=
  let p := s.act.foldl (execStep g) (s, [])
  { p.1 with act := p.2.foldl pyRemove p.1.act }

/-- The SWAP candidate edges `(i, j)` with `i < j`, in coupling-dict
iteration order (`swap.py` lines 123-130). -/
def candiList (g : CouplingGraph) : List (ℕ × ℕ) :=
  g.foldl
    (fun acc e =>
      e.2.foldl (fun a j => if e.1 < j then a ++ [(e.1, j)] else a) acc)
    []

/-- `mcpe_costs`: the candidates whose MCPE score is `> 0`, with their
scores, in candidate order (`swap.py` lines 132-136). -/
def mcpeCosts (g : CouplingGraph) (active : List Gate) (m : List (ℕ × ℕ))
    (d : ℕ → ℕ → PyVal) : List ((ℕ × ℕ) × PyVal) :=
  (candiList g).foldl
    (fun acc sw =>
      let cost := calculateMcpeCost sw active m d
      if cost.gt (.fin 0) then acc ++ [(sw, cost)] else acc)
    []

/-- Python `max(items, key=lambda x: x[1])`: the first item whose key is
maximal (later items replace the current best only on strict `>`). -/
def pyMaxBySnd : List ((ℕ × ℕ) × PyVal) → Option ((ℕ × ℕ) × PyVal)
  | [] => none
  | x :: xs => some (xs.foldl (fun best y => if y.2.gt best.2 then y else best) x)

/-- `{v: k for k, v in mapping.items()}[p]`: the last logical qubit whose
image is `p` (dict comprehension keeps the last writer). -/
def revLookup (m : List (ℕ × ℕ)) (p : ℕ) : ℕ :=
  (m.foldl (fun acc qp => if qp.2 = p then some qp.1 else acc) none).getD 0

/-- The SWAP-selection step (`swap.py` lines 120-152): when the active
list is non-empty, score every candidate, and if any scored positively
take the first best one, emit a `swap` record only when both chosen
physical qubits are images of mapped logical qubits, and update the real
mapping unconditionally.  When no candidate scores positively nothing
happens (the code raises no error). -/
def swapPhase (g : CouplingGraph) (d : ℕ → ℕ → PyVal) (s : RouterState) : RouterState :=
  if s.act.isEmpty then s
  else
    match pyMaxBySnd (mcpeCosts g s.act s.mapping d) with
    | none => s
    | some best =>
      let p1 := best.1.1
      let p2 := best.1.2
      let ops' :=
        if p1 ∈ s.mapping.map Prod.snd ∧ p2 ∈ s.mapping.map Prod.snd then
          s.ops ++ [Op.swp (revLookup s.mapping p1) (revLookup s.mapping p2)]
        else s.ops
      { s with ops := ops', mapping := swapImages s.mapping p1 p2 }

/-- One iteration of the `while True` body: scan, execute, then SWAP
selection. -/
def loopStep (g : CouplingGraph) (d : ℕ → ℕ → PyVal) (nscan : ℕ)
    (s : RouterState) : RouterState :=
  swapPhase g d (executePhase g (scanPhase s nscan))

/-- The scheduling loop with the repository's termination test
`if not fron_list: break` placed at loop-body level (the literal file
mis-indents it at a level matching no enclosing block; loop-body level is
the placement matching the adjacent comment `repeat till fron_list is
empty`).  Returns the final state and whether the loop broke within
`fuel` iterations. -/
def runLoop (g : CouplingGraph) (d : ℕ → ℕ → PyVal) (nscan : ℕ) :
    ℕ → RouterState → RouterState × Bool
  | 0, s => (s, false)
  | fuel + 1, s =>
    let s1 := loopStep g d nscan s
    if s1.fron.isEmpty then (s1, true) else runLoop g d nscan fuel s1

/-- `dlist` construction: each gate record is pushed (by identity) into
both endpoints' dependence lists, in program order. -/
def buildDlist (gates : List (ℕ × ℕ)) : ℕ → List Gate :=
  (gates.enum).foldl
    (fun dl e =>
      let gate : Gate := ⟨e.1, e.2.1, e.2.2⟩
      pushBack (pushBack dl e.2.1 gate) e.2.2 gate)
    (fun _ => [])

/-- The router's initial state: copied mapping, empty frontier/active
lists and log, everything unfrozen, dependence lists built from the gate
stream. -/
def initialState (im : List (ℕ × ℕ)) (gates : List (ℕ × ℕ)) : RouterState :=
  { mapping := im
    fron := []
    act := []
    frozen := fun _ => false
    dlist := buildDlist gates
    executed := []
    ops := [] }

/-- `schedule_quantum_circuit`, parameterised by the coupling graph, the
initial mapping and the gate stream (hard-coded to `swapGates` in the
source), with the scan range (`6` in the source) and loop fuel made
explicit. -/
def scheduleQuantumCircuit (g : CouplingGraph) (im : List (ℕ × ℕ))
    (gates : List (ℕ × ℕ)) (nscan fuel : ℕ) : RouterState × Bool :=
  runLoop g (fillDistances g) nscan fuel (initialState im gates)

/-- The gate list hard-coded in `schedule_quantum_circuit`. -/
def swapGates : List (ℕ × ℕ) := [(0, 2), (5, 2), (0, 5), (4, 0), (0, 3), (5, 0), (3, 1)]

/-- A three-node path `Q0 - Q1 - Q2` in `swap.py`'s coupling-dict format. -/
def path3 : CouplingGraph := [(0, [1]), (1, [0, 2]), (2, [1])]

/-- A four-node path `Q0 - Q1 - Q2 - Q3` in coupling-dict format. -/
def path4 : CouplingGraph := [(0, [1]), (1, [0, 2]), (2, [1, 3]), (3, [2])]

example : checkConnectivity 0 1 [(0, 0), (1, 1)] path3 = true := by decide
example : checkConnectivity 0 1 [(0, 0), (1, 2)] path3 = false := by decide
example : fillDistances path3 0 2 = .pinf := by decide
example : fillDistances path3 0 1 = .fin 1 := by decide
example : fillDistances path3 2 2 = .fin 0 := by decide
example :
    (loopStep path3 (fillDistances path3) 6 (initialState [(0, 0), (1, 1)] [(0, 1)])).ops
      = [Op.cx 0 1] := by decide
example :
    (loopStep path3 (fillDistances path3) 6 (initialState [(0, 0), (1, 2)] [(0, 1)])).mapping
      = [(0, 1), (1, 2)] := by decide
example :
    (loopStep path3 (fillDistances path3) 6 (initialState [(0, 0), (1, 2)] [(0, 1)])).ops
      = [] := by decide

/-- Fold preservation of an invariant. -/
theorem foldl_inv {α β : Type} {f : β → α → β} {P : β → Prop}
    (hf : ∀ b a, P b → P (f b a)) : ∀ (l : List α) (b : β), P b → P (l.foldl f b)
  | [], _, hb => hb
  | a :: l, b, hb => foldl_inv hf l (f b a) (hf b a hb)

theorem scanQubit_frame (s : RouterState) (q : ℕ) :
    (scanQubit s q).mapping = s.mapping ∧ (scanQubit s q).ops = s.ops ∧
      (scanQubit s q).executed = s.executed := by
  unfold scanQubit
  split
  · exact ⟨rfl, rfl, rfl⟩
  · split
    · exact ⟨rfl, rfl, rfl⟩
    · split <;> exact ⟨rfl, rfl, rfl⟩

theorem scanPhase_frame (s : RouterState) (n : ℕ) :
    (scanPhase s n).mapping = s.mapping ∧ (scanPhase s n).ops = s.ops ∧
      (scanPhase s n).executed = s.executed := by
  unfold scanPhase
  refine foldl_inv (P := fun t : RouterState =>
    t.mapping = s.mapping ∧ t.ops = s.ops ∧ t.executed = s.executed) ?_ (List.range n) s
    ⟨rfl, rfl, rfl⟩
  intro b q hb
  obtain ⟨h1, h2, h3⟩ := scanQubit_frame b q
  exact ⟨h1.trans hb.1, h2.trans hb.2.1, h3.trans hb.2.2⟩

/-- Invariant carried through the execute loop: the mapping is untouched
and every logged `cx` and executed gate passed the connectivity test
under that (unchanged) mapping. -/
def ExecInv (g : CouplingGraph) (s0 : RouterState) (p : RouterState × List Gate) : Prop :=
  p.1.mapping = s0.mapping ∧
    (∃ ex, p.1.ops = s0.ops ++ ex ∧
      ∀ c t, Op.cx c t ∈ ex → checkConnectivity c t s0.mapping g = true) ∧
    (∃ eg, p.1.executed = s0.executed ++ eg ∧
      ∀ gate ∈ eg, checkConnectivity gate.control gate.target s0.mapping g = true)

theorem execStep_inv (g : CouplingGraph) (s0 : RouterState)
    (p : RouterState × List Gate) (gate : Gate) (hp : ExecInv g s0 p) :
    ExecInv g s0 (execStep g p gate) := by
  obtain ⟨hm, ⟨ex, hops, hex⟩, ⟨eg, hexec, heg⟩⟩ := hp
  unfold execStep
  split
  case isTrue h =>
    refine ⟨hm, ⟨ex ++ [Op.cx gate.control gate.target], ?_, ?_⟩,
      ⟨eg ++ [gate], ?_, ?_⟩⟩
    · simp [hops]
    · intro c t hct
      rcases List.mem_append.1 hct with h1 | h1
      · exact hex c t h1
      · simp only [List.mem_singleton] at h1
        cases h1
        rw [hm] at h
        exact h
    · simp [hexec]
    · intro gt hgt
      rcases List.mem_append.1 hgt with h1 | h1
      · exact heg gt h1
      · simp only [List.mem_singleton] at h1
        cases h1
        rw [hm] at h
        exact h
  case isFalse =>
    exact ⟨hm, ⟨ex, hops, hex⟩, ⟨eg, hexec, heg⟩⟩

theorem executePhase_spec (g : CouplingGraph) (s : RouterState) :
    (executePhase g s).mapping = s.mapping ∧
      (∃ ex, (executePhase g s).ops = s.ops ++ ex ∧
        ∀ c t, Op.cx c t ∈ ex → checkConnectivity c t s.mapping g = true) ∧
      (∃ eg, (executePhase g s).executed = s.executed ++ eg ∧
        ∀ gate ∈ eg, checkConnectivity gate.control gate.target s.mapping g = true) := by
  have h := foldl_inv (P := ExecInv g s) (execStep_inv g s) s.act (s, [])
    ⟨rfl, ⟨[], by simp, by simp⟩, ⟨[], by simp, by simp⟩⟩
  exact h

theorem swapPhase_ops (g : CouplingGraph) (d : ℕ → ℕ → PyVal) (s : RouterState) :
    ∃ tl, (swapPhase g d s).ops = s.ops ++ tl ∧ ∀ c t, Op.cx c t ∉ tl := by
  unfold swapPhase
  split
  · exact ⟨[], by simp, by simp⟩
  · split
    · exact ⟨[], by simp, by simp⟩
    · dsimp only
      split
      · exact ⟨[Op.swp (revLookup s.mapping _) (revLookup s.mapping _)], rfl, by simp⟩
      · exact ⟨[], by simp, by simp⟩

theorem swapPhase_executed (g : CouplingGraph) (d : ℕ → ℕ → PyVal) (s : RouterState) :
    (swapPhase g d s).executed = s.executed := by
  unfold swapPhase
  split
  · rfl
  · split
    · rfl
    · rfl

/-- C1.  Adjacency invariant: in any iteration of the scheduling loop the
mapping is unchanged until after all `ExecuteGate` emissions of that
iteration, and every `cx` record appended during the iteration — and
every gate taken from the active list and executed — passed the
`check_connectivity` test under the mapping current at emission time. -/
theorem exec_gate_adjacency (g : CouplingGraph) (d : ℕ → ℕ → PyVal) (nscan : ℕ)
    (s : RouterState) :
    (executePhase g (scanPhase s nscan)).mapping = s.mapping ∧
      (∀ c t, Op.cx c t ∈ (loopStep g d nscan s).ops.drop s.ops.length →
        checkConnectivity c t s.mapping g = true) ∧
      (∀ gate ∈ (loopStep g d nscan s).executed.drop s.executed.length,
        checkConnectivity gate.control gate.target s.mapping g = true) := by
  obtain ⟨hsm, hso, hse⟩ := scanPhase_frame s nscan
  obtain ⟨hem, ⟨ex, hops, hex⟩, ⟨eg, hexec, heg⟩⟩ := executePhase_spec g (scanPhase s nscan)
  obtain ⟨tl, htl, hncx⟩ := swapPhase_ops g d (executePhase g (scanPhase s nscan))
  refine ⟨hem.trans hsm, ?_, ?_⟩
  · intro c t hct
    have hall : (loopStep g d nscan s).ops = s.ops ++ (ex ++ tl) := by
      unfold loopStep
      rw [htl, hops, hso, List.append_assoc]
    rw [hall, List.drop_left] at hct
    rcases List.mem_append.1 hct with h1 | h1
    · rw [hsm] at hex
      exact hex c t h1
    · exact absurd h1 (hncx c t)
  · intro gate hgt
    have hall : (loopStep g d nscan s).executed = s.executed ++ eg := by
      unfold loopStep
      rw [swapPhase_executed, hexec, hse]
    rw [hall, List.drop_left] at hgt
    rw [hsm] at heg
    exact heg gate hgt

/-- Witness for C1 at a concrete input: on the path `Q0-Q1-Q2` with the
identity placement of two logical qubits, the first loop iteration emits
`cx 0 1`, and the invariant instantiates to the adjacency of its mapped
operands. -/
theorem exec_gate_adjacency_check :
    (Op.cx 0 1 ∈ ((loopStep path3 (fillDistances path3) 6
        (initialState [(0, 0), (1, 1)] [(0, 1)])).ops.drop
          (initialState [(0, 0), (1, 1)] [(0, 1)]).ops.length)) ∧
      checkConnectivity 0 1 [(0, 0), (1, 1)] path3 = true :=
  ⟨by decide,
    (exec_gate_adjacency path3 (fillDistances path3) 6
      (initialState [(0, 0), (1, 1)] [(0, 1)])).2.1 0 1 (by decide)⟩

/-- C2 (failing run): on the path `Q0-Q1-Q2-Q3` with the two logical
qubits of the single gate `(0,1)` placed three hops apart, the loop's
termination test `if not fron_list: break` fires at the end of the first
iteration — the frontier is empty because the gate moved to the active
list — although the active list and both dependency lists are still
non-empty, so the routine returns with the gate never executed. -/
theorem loop_break_ignores_active :
    (scheduleQuantumCircuit path4 [(0, 0), (1, 3)] [(0, 1)] 6 5).2 = true ∧
      (scheduleQuantumCircuit path4 [(0, 0), (1, 3)] [(0, 1)] 6 5).1.act = [⟨0, 0, 1⟩] ∧
      (scheduleQuantumCircuit path4 [(0, 0), (1, 3)] [(0, 1)] 6 5).1.dlist 0 = [⟨0, 0, 1⟩] ∧
      (scheduleQuantumCircuit path4 [(0, 0), (1, 3)] [(0, 1)] 6 5).1.dlist 1 = [⟨0, 0, 1⟩] ∧
      (scheduleQuantumCircuit path4 [(0, 0), (1, 3)] [(0, 1)] 6 5).1.ops = [] :=
  ⟨by decide, by decide, by decide, by decide, by decide⟩

/-- C4 (failing run): same instance — after scan and execute the active
list is non-empty while `mcpe_costs` is empty (the single gate is three
hops away, so under the 0/1/∞ distance matrix every candidate scores
`nan`, never `> 0`); the SWAP-selection step then leaves the state
entirely unchanged and the code path contains no raise: the router
continues (and here returns) silently instead of failing. -/
theorem no_positive_swap_is_silent :
    (executePhase path4 (scanPhase (initialState [(0, 0), (1, 3)] [(0, 1)]) 6)).act
        = [⟨0, 0, 1⟩] ∧
      mcpeCosts path4
          (executePhase path4 (scanPhase (initialState [(0, 0), (1, 3)] [(0, 1)]) 6)).act
          (executePhase path4 (scanPhase (initialState [(0, 0), (1, 3)] [(0, 1)]) 6)).mapping
          (fillDistances path4) = [] ∧
      (swapPhase path4 (fillDistances path4)
          (executePhase path4 (scanPhase (initialState [(0, 0), (1, 3)] [(0, 1)]) 6))).ops =
        (executePhase path4 (scanPhase (initialState [(0, 0), (1, 3)] [(0, 1)]) 6)).ops ∧
      (swapPhase path4 (fillDistances path4)
          (executePhase path4 (scanPhase (initialState [(0, 0), (1, 3)] [(0, 1)]) 6))).mapping =
        (executePhase path4 (scanPhase (initialState [(0, 0), (1, 3)] [(0, 1)]) 6)).mapping ∧
      (swapPhase path4 (fillDistances path4)
          (executePhase path4 (scanPhase (initialState [(0, 0), (1, 3)] [(0, 1)]) 6))).act =
        (executePhase path4 (scanPhase (initialState [(0, 0), (1, 3)] [(0, 1)]) 6)).act :=
  ⟨by decide, by decide, by decide, by decide, by decide⟩

/-- C5 counterexample: on the path `Q0-Q1-Q2` with mapping `{0: 0, 1: 2}`
and the single gate `(0,1)`, the first iteration picks the winning
exchange `(0, 1)`; physical qubit `1` holds no logical qubit, so the
`p1 in rev_mapping and p2 in rev_mapping` guard suppresses the record:
the mapping is mutated (logical 0 moves to physical 1) while the
operation log stays empty — a swap applied with no `Swap` record. -/
theorem swap_record_dropped :
    (initialState [(0, 0), (1, 2)] [(0, 1)]).mapping = [(0, 0), (1, 2)] ∧
      (loopStep path3 (fillDistances path3) 6
          (initialState [(0, 0), (1, 2)] [(0, 1)])).mapping = [(0, 1), (1, 2)] ∧
      (loopStep path3 (fillDistances path3) 6
          (initialState [(0, 0), (1, 2)] [(0, 1)])).ops = [] :=
  ⟨by decide, by decide, by decide⟩

/-- C5 amended: when the SWAP-selection step picks a winning exchange
`(p1, p2)`, the real mapping is always updated by exchanging the images
of `p1` and `p2`, but the `Swap` record is emitted precisely when both
`p1` and `p2` are images of currently mapped logical qubits; when either
endpoint is unoccupied the mapping changes with no record. -/
theorem swap_commit_spec (g : CouplingGraph) (d : ℕ → ℕ → PyVal) (s : RouterState)
    (best : (ℕ × ℕ) × PyVal) (hact : s.act.isEmpty = false)
    (hbest : pyMaxBySnd (mcpeCosts g s.act s.mapping d) = some best) :
    (swapPhase g d s).mapping = swapImages s.mapping best.1.1 best.1.2 ∧
      ((swapPhase g d s).ops =
          s.ops ++ [Op.swp (revLookup s.mapping best.1.1) (revLookup s.mapping best.1.2)] ↔
        best.1.1 ∈ s.mapping.map Prod.snd ∧ best.1.2 ∈ s.mapping.map Prod.snd) := by
  unfold swapPhase
  rw [hact, hbest]
  simp only [Bool.false_eq_true, if_false]
  constructor
  · trivial
  · constructor
    · intro hops
      by_contra hmem
      rw [if_neg hmem] at hops
      simp at hops
    · intro hmem
      rw [if_pos hmem]

/-- Witness for the amended C5 at the counterexample instance: after
scan and execute on the path `Q0-Q1-Q2`, the winning exchange `(0, 1)`
updates the mapping by exchanging the images of physical 0 and 1. -/
theorem swap_commit_spec_check :
    (swapPhase path3 (fillDistances path3)
        (executePhase path3 (scanPhase (initialState [(0, 0), (1, 2)] [(0, 1)]) 6))).mapping =
      swapImages
        (executePhase path3 (scanPhase (initialState [(0, 0), (1, 2)] [(0, 1)]) 6)).mapping
        0 1 :=
  (swap_commit_spec path3 (fillDistances path3)
    (executePhase path3 (scanPhase (initialState [(0, 0), (1, 2)] [(0, 1)]) 6))
    ((0, 1), PyVal.pinf) (by decide) (by decide)).1

/-- The exchange of two physical images, as a function on images. -/
def pySwapVal (p1 p2 p : ℕ) : ℕ :=
  if p = p1 then p2 else if p = p2 then p1 else p

theorem swapImages_map_snd (m : List (ℕ × ℕ)) (p1 p2 : ℕ) :
    (swapImages m p1 p2).map Prod.snd = (m.map Prod.snd).map (pySwapVal p1 p2) := by
  unfold swapImages
  rw [List.map_map, List.map_map]
  apply List.map_congr_left
  intro qp _
  simp only [Function.comp_apply, pySwapVal]
  split_ifs <;> rfl

theorem pySwapVal_injective (p1 p2 : ℕ) : Function.Injective (pySwapVal p1 p2) := by
  intro a b h
  unfold pySwapVal at h
  split_ifs at h <;> omega

/-- C9: the mapping update applied for a winning exchange preserves
injectivity — if no two logical qubits share a physical image before the
swap of images `p1 ↔ p2`, none do afterwards. -/
theorem swap_preserves_injective (m : List (ℕ × ℕ)) (p1 p2 : ℕ)
    (h : (m.map Prod.snd).Nodup) : ((swapImages m p1 p2).map Prod.snd).Nodup := by
  rw [swapImages_map_snd]
  exact h.map (pySwapVal_injective p1 p2)

/-- Witness for C9 at a concrete mapping. -/
theorem swap_preserves_injective_check :
    ([(0, 0), (1, 2)].map Prod.snd).Nodup ∧
      ((swapImages [(0, 0), (1, 2)] 0 1).map Prod.snd).Nodup :=
  ⟨by decide, swap_preserves_injective [(0, 0), (1, 2)] 0 1 (by decide)⟩

/-- A networkx-style undirected graph: insertion-ordered node list and
insertion-ordered adjacency lists. -/
structure FinGraph where
  nodes : List ℕ
  adj : List (ℕ × List ℕ)
deriving DecidableEq

/-- Adjacency-list lookup. -/
def glookup : List (ℕ × List ℕ) → ℕ → Option (List ℕ)
  | [], _ => none
  | e :: rest, v => if e.1 = v then some e.2 else glookup rest v

/-- `G.neighbors(v)` in insertion order; a node outside the graph has
none. -/
def gneighbors (g : FinGraph) (v : ℕ) : List ℕ :=
  (glookup g.adj v).getD []

/-- `G.add_node(v)`. -/
def addNode (g : FinGraph) (v : ℕ) : FinGraph :=
  if v ∈ g.nodes then g else { nodes := g.nodes ++ [v], adj := g.adj ++ [(v, [])] }

/-- Append `v` to `u`'s adjacency list if not already present. -/
def addHalfEdge (adj : List (ℕ × List ℕ)) (u v : ℕ) : List (ℕ × List ℕ) :=
  adj.map fun e => if e.1 = u then (e.1, if v ∈ e.2 then e.2 else e.2 ++ [v]) else e

/-- `G.add_edge(u, v)` on an undirected networkx graph: both endpoints are
added as nodes, and each is appended to the other's neighbour list. -/
def addEdge (g : FinGraph) (u v : ℕ) : FinGraph :=
  let g1 := addNode (addNode g u) v
  { g1 with adj := addHalfEdge (addHalfEdge g1.adj u v) v u }

/-- `nx.Graph(coupling_dict)`: nodes from the dict keys, edges from every
key-to-neighbour entry. -/
def graphFromDict (d : List (ℕ × List ℕ)) : FinGraph :=
  d.foldl (fun g e => e.2.foldl (fun g2 j => addEdge g2 e.1 j) (addNode g e.1)) ⟨[], []⟩

/-- `G.has_edge(u, v)`. -/
def hasEdgeG (g : FinGraph) (u v : ℕ) : Bool :=
  decide (v ∈ gneighbors g u)

/-- One BFS ring expansion: collect the undiscovered neighbours of the
frontier, assign them the next distance. -/
def bfsRound (g : FinGraph) (st : List (ℕ × ℕ) × List ℕ × ℕ) :
    List (ℕ × ℕ) × List ℕ × ℕ :=
  let fresh := st.2.1.foldl
    (fun acc u =>
      acc ++ (gneighbors g u).filter (fun v => (mlookup st.1 v).isNone && !(acc.contains v)))
    []
  (st.1 ++ fresh.map (fun v => (v, st.2.2 + 1)), fresh, st.2.2 + 1)

/-- BFS distance table from `src` (one ring per round; `|nodes|` rounds
reach every node of the component). -/
def bfsDists (g : FinGraph) (src : ℕ) : List (ℕ × ℕ) :=
  ((List.range g.nodes.length).foldl (fun st _ => bfsRound g st) ([(src, 0)], [src], 0)).1

/-- Modelled from the spec: `nx.shortest_path_length` (library code, no
source in the repository) — the unweighted shortest-path hop count,
computed by BFS; `none` when unreachable. -/
def shortestPathLen (g : FinGraph) (u v : ℕ) : Option ℕ :=
  mlookup (bfsDists g u) v

/-- Modelled from the spec: `nx.eccentricity` — the greatest hop distance
from `v` to any node; `none` when some node is unreachable. -/
def eccentricity (g : FinGraph) (v : ℕ) : Option ℕ :=
  let ds := g.nodes.map (shortestPathLen g v)
  if ds.all Option.isSome then some (ds.foldl (fun m o => max m (o.getD 0)) 0) else none

/-- Eccentricity totalised for the connected graphs the placer receives. -/
def eccD (g : FinGraph) (v : ℕ) : ℕ :=
  (eccentricity g v).getD 0

/-- Modelled from the spec: `nx.center` — the nodes whose eccentricity is
the minimum over all nodes. -/
def graphCenters (g : FinGraph) : List ℕ :=
  match (g.nodes.map (eccD g)).min? with
  | none => []
  | some r => g.nodes.filter (fun v => eccD g v == r)

/-- `G.degree(v)`. -/
def degreeOf (g : FinGraph) (v : ℕ) : ℕ :=
  (gneighbors g v).length

/-- `input_mapping.py` `find_center_with_max_degree`: among the graph
centers take those of maximum degree and return the smallest index
(`'Qi'` labels compare by their numeric index).  `none` only when the
graph has no center. -/
def find_center_with_max_degree (g : FinGraph) : Option ℕ :=
  let cs := graphCenters g
  match (cs.map (degreeOf g)).max? with
  | none => none
  | some mx => (cs.filter (fun v => degreeOf g v == mx)).min?

example : graphFromDict [(0, [1]), (1, [0, 2]), (2, [1, 3]), (3, [2])] =
    ⟨[0, 1, 2, 3], [(0, [1]), (1, [0, 2]), (2, [1, 3]), (3, [2])]⟩ := by decide
example : graphCenters (graphFromDict [(0, [1]), (1, [0, 2]), (2, [1, 3]), (3, [2])])
    = [1, 2] := by decide
example : find_center_with_max_degree (graphFromDict [(0, [1]), (1, [0, 2]), (2, [1, 3]), (3, [2])])
    = some 1 := by decide

/-- C6: the seed-selection rule, applied by `get_qubit_mapping` through
the single function `find_center_with_max_degree` to the interaction
graph and to the topology graph alike: the selected seed is a node of
minimum eccentricity; among such centers its degree is maximum; and among
the maximum-degree centers its index is smallest. -/
theorem seed_selection_rule (g : FinGraph) (c : ℕ)
    (h : find_center_with_max_degree g = some c) :
    c ∈ graphCenters g ∧
      (∀ v ∈ g.nodes, eccD g c ≤ eccD g v) ∧
      (∀ v ∈ graphCenters g, degreeOf g v ≤ degreeOf g c) ∧
      (∀ v ∈ graphCenters g, degreeOf g v = degreeOf g c → c ≤ v) := by
  unfold find_center_with_max_degree at h
  dsimp only at h
  rcases hmx : (List.map (degreeOf g) (graphCenters g)).max? with _ | mx
  · rw [hmx] at h
    exact absurd h (by simp)
  · rw [hmx] at h
    simp only at h
    obtain ⟨hcmem, hcmin⟩ := List.min?_eq_some_iff'.1 h
    rw [List.mem_filter] at hcmem
    obtain ⟨hccs, hcdeg⟩ := hcmem
    have hcdeg' : degreeOf g c = mx := by simpa using hcdeg
    obtain ⟨hmxmem, hmxmax⟩ := List.max?_eq_some_iff'.1 hmx
    refine ⟨hccs, ?_, ?_, ?_⟩
    · intro v hv
      unfold graphCenters at hccs
      rcases hr : (g.nodes.map (eccD g)).min? with _ | r
      · rw [hr] at hccs
        exact absurd hccs (by simp)
      · rw [hr] at hccs
        simp only [List.mem_filter, beq_iff_eq] at hccs
        obtain ⟨hrmem, hrmin⟩ := List.min?_eq_some_iff'.1 hr
        rw [hccs.2]
        exact hrmin _ (List.mem_map_of_mem (eccD g) hv)
    · intro v hv
      rw [hcdeg']
      exact hmxmax _ (List.mem_map_of_mem (degreeOf g) hv)
    · intro v hv hdv
      refine hcmin v ?_
      rw [List.mem_filter]
      exact ⟨hv, by simp [hdv, hcdeg']⟩

/-- Witness for C6 on the four-node path topology: the selected seed is
`1`, a minimum-eccentricity center whose degree is not exceeded by the
other center `2`, with eccentricity no larger than node `0`'s. -/
theorem seed_selection_rule_check :
    find_center_with_max_degree (graphFromDict [(0, [1]), (1, [0, 2]), (2, [1, 3]), (3, [2])])
        = some 1 ∧
      1 ∈ graphCenters (graphFromDict [(0, [1]), (1, [0, 2]), (2, [1, 3]), (3, [2])]) ∧
      eccD (graphFromDict [(0, [1]), (1, [0, 2]), (2, [1, 3]), (3, [2])]) 1 ≤
        eccD (graphFromDict [(0, [1]), (1, [0, 2]), (2, [1, 3]), (3, [2])]) 0 ∧
      degreeOf (graphFromDict [(0, [1]), (1, [0, 2]), (2, [1, 3]), (3, [2])]) 2 ≤
        degreeOf (graphFromDict [(0, [1]), (1, [0, 2]), (2, [1, 3]), (3, [2])]) 1 :=
  ⟨by decide,
    (seed_selection_rule (graphFromDict [(0, [1]), (1, [0, 2]), (2, [1, 3]), (3, [2])]) 1
      (by decide)).1,
    (seed_selection_rule (graphFromDict [(0, [1]), (1, [0, 2]), (2, [1, 3]), (3, [2])]) 1
      (by decide)).2.1 0 (by decide),
    (seed_selection_rule (graphFromDict [(0, [1]), (1, [0, 2]), (2, [1, 3]), (3, [2])]) 1
      (by decide)).2.2.1 2 (by decide)⟩

/-- C3 (failing evaluation): the `distances` matrix that
`schedule_quantum_circuit` builds and feeds to `calculate_mcpe_cost`
leaves every non-adjacent pair at `float('inf')` — on the path
`Q0-Q1-Q2` the entry for `(0, 2)` is `inf` while the unweighted
shortest-path hop count (what `dl_dm.py`'s `distance_matrix` computes and
the claim asserts) is `2`. -/
theorem router_distances_not_shortest_path :
    fillDistances path3 0 2 = PyVal.pinf ∧
      shortestPathLen (graphFromDict path3) 0 2 = some 2 ∧
      decide (fillDistances path3 0 2 = PyVal.fin 2) = false :=
  ⟨by decide, by decide, by decide⟩

/-- Python `sorted`/`list.sort` by a distance key followed by `[:1]`:
the earliest element with minimal key (stable sort), as a singleton. -/
def sortTake1ByDist (gc : FinGraph) (src : ℕ) : List ℕ → List ℕ
  | [] => []
  | x :: xs =>
    [xs.foldl
      (fun best y =>
        if (shortestPathLen gc src y).getD 0 < (shortestPathLen gc src best).getD 0 then y
        else best)
      x]

/-- Python `max(candidates, key=lambda x: Gc.degree[x])`: the first
element of maximal degree; `none` on an empty list — `max(()) ` raises
`ValueError`. -/
def maxByDegree (g : FinGraph) : List ℕ → Option ℕ
  | [] => none
  | x :: xs =>
    some (xs.foldl (fun best y => if degreeOf g best < degreeOf g y then y else best) x)

/-- The placement loop of `get_qubit_mapping` (`input_mapping.py` lines
118-134): for each logical qubit in BFS order, collect the mapped
interaction-graph neighbours, start from the unused physical neighbours
of the first reference's image, narrow by each further reference, then
assign — the single candidate if exactly one remains, otherwise the
maximum-degree candidate, where `max` on an empty candidate list raises
`ValueError`. -/
def placeLoop (gd gc : FinGraph) : ℕ → List ℕ → List (ℕ × ℕ) → List ℕ →
    Except String (List (ℕ × ℕ))
  | _, [], mapping, _ => .ok mapping
  | 0, _ :: _, _, _ => .error "fuel exhausted"
  | fuel + 1, p :: rest, mapping, used =>
    let refLocs := (gneighbors gd p).filter (fun n => (mlookup mapping n).isSome)
    match refLocs with
    | [] => .error "IndexError: ref_locs is empty"
    | r0 :: rTail =>
      let candi0 := (gneighbors gc (lookupD mapping r0)).filter (fun x => !(used.contains x))
      let candi := rTail.foldl (fun cl r => sortTake1ByDist gc (lookupD mapping r) cl) candi0
      if candi.length = 1 then
        placeLoop gd gc fuel rest (mapping ++ [(p, candi.headD 0)]) (used ++ [candi.headD 0])
      else
        match maxByDegree gc candi with
        | none => .error "ValueError: max() arg is an empty sequence"
        | some sel => placeLoop gd gc fuel rest (mapping ++ [(p, sel)]) (used ++ [sel])

/-- BFS discovery order (`nx.bfs_edges` prepended with the source):
process the queue in FIFO order, appending undiscovered neighbours in
adjacency order.  Spends one unit of fuel per processed node. -/
def bfsAux (g : FinGraph) : ℕ → List ℕ → List ℕ → List ℕ
  | 0, _, disc => disc
  | _ + 1, [], disc => disc
  | fuel + 1, u :: rest, disc =>
    let fresh := (gneighbors g u).filter (fun v => !(disc.contains v) && !(rest.contains v))
    bfsAux g fuel (rest ++ fresh) (disc ++ fresh)

/-- `[interaction_center] + [v for u, v in nx.bfs_edges(Gd, center)]`. -/
def bfsTraversal (g : FinGraph) (src : ℕ) : List ℕ :=
  bfsAux g g.nodes.length [src] [src]

/-- The interaction graph of `get_qubit_mapping`, as adjacency structure:
`Gd.add_edge(q1, q2)` for every two-qubit gate in stream order (the edge
weight does not influence the placement). -/
def interactionAdj (gates : List (ℕ × ℕ)) : FinGraph :=
  gates.foldl (fun g ct => addEdge g ct.1 ct.2) ⟨[], []⟩

/-- `input_mapping.py` `get_qubit_mapping`: build the interaction and
coupling graphs, check the size guard, pick both seeds with
`find_center_with_max_degree`, fix the BFS processing order, and run the
placement loop. -/
def getQubitMapping (gates : List (ℕ × ℕ)) (nQubits : ℕ)
    (couplingDict : List (ℕ × List ℕ)) : Except String (List (ℕ × ℕ)) :=
  let gd := interactionAdj gates
  let gc := graphFromDict couplingDict
  if gc.nodes.length < nQubits then
    .error "Coupling graph has fewer qubits than required by the circuit"
  else
    match find_center_with_max_degree gd, find_center_with_max_degree gc with
    | some ic, some cc =>
      let trav := bfsTraversal gd ic
      placeLoop gd gc trav.length trav.tail [(ic, cc)] [cc]
    | _, _ => .error "nx.center raised"

example :
    getQubitMapping [(0, 2), (5, 2), (0, 5), (4, 0), (0, 3), (5, 0), (3, 1)] 6 path4
      = .error "Coupling graph has fewer qubits than required by the circuit" := rfl

/-- C7 (failing run): gates `(0,1), (0,2), (0,3)` on four logical qubits
over the path topology `Q0-Q1-Q2-Q3`.  The seed `0 ↦ Q1` and the first
two placements exhaust all neighbours of `Q1`, so for logical qubit `3`
the candidate set is empty and the placer crashes in
`max(candi_locs, key=...)` with `ValueError` instead of falling back —
no complete mapping is produced. -/
theorem empty_candidates_crash :
    getQubitMapping [(0, 1), (0, 2), (0, 3)] 4 [(0, [1]), (1, [0, 2]), (2, [1, 3]), (3, [2])]
      = .error "ValueError: max() arg is an empty sequence" := rfl

/-- `tuple(sorted(qubits))`: the unordered pair in canonical order. -/
def sortPair (a b : ℕ) : ℕ × ℕ :=
  if a ≤ b then (a, b) else (b, a)

/-- Lookup in a weighted-edge association list keyed by unordered pair. -/
def elookup : List ((ℕ × ℕ) × ℕ) → (ℕ × ℕ) → Option ℕ
  | [], _ => none
  | e :: rest, pr => if e.1 = pr then some e.2 else elookup rest pr

/-- First pass of `generate_interaction_graph`
(`interaction_graph.py` lines 36-49): walk the two-qubit stream with its
gate numbers, record for each unordered pair the gate number of its first
occurrence in `first_interaction`, and emit one interaction edge per gate
carrying `first_interaction[pair]`. -/
def igFirstPass : List (ℕ × ℕ) → ℕ → List ((ℕ × ℕ) × ℕ) →
    List ((ℕ × ℕ) × ℕ) × List (ℕ × ℕ × ℕ)
  | [], _, fi => (fi, [])
  | ct :: rest, k, fi =>
    let pr := sortPair ct.1 ct.2
    let fi1 := if (elookup fi pr).isSome then fi else fi ++ [(pr, k)]
    let out := igFirstPass rest (k + 1) fi1
    (out.1, (ct.1, ct.2, (elookup fi1 pr).getD 0) :: out.2)

/-- Second pass (`interaction_graph.py` lines 52-58): add each
interaction edge to the graph unless the unordered pair already has one
(`if not G.has_edge(...)`), keeping the carried weight. -/
def igAddEdges : List (ℕ × ℕ × ℕ) → List ((ℕ × ℕ) × ℕ) → List ((ℕ × ℕ) × ℕ)
  | [], g => g
  | e :: rest, g =>
    igAddEdges rest
      (if (elookup g (sortPair e.1 e.2.1)).isSome then g
       else g ++ [(sortPair e.1 e.2.1, e.2.2)])

/-- `generate_interaction_graph`: the weighted edge set of the resulting
graph, keyed by unordered pair. -/
def generateInteractionGraph (gates : List (ℕ × ℕ)) : List ((ℕ × ℕ) × ℕ) :=
  igAddEdges (igFirstPass gates 0 []).2 []

/-- Stated from the spec's words, for comparison with the built graph:
the `sequence_index` (counting from `k`) of the first two-qubit gate in
the stream acting on the unordered pair. -/
def specFirstPairIndexFrom : List (ℕ × ℕ) → ℕ → (ℕ × ℕ) → Option ℕ
  | [], _, _ => none
  | ct :: rest, k, pr =>
    if sortPair ct.1 ct.2 = pr then some k else specFirstPairIndexFrom rest (k + 1) pr

/-- The sequence index of the first gate on an unordered pair. -/
def specFirstPairIndex (gates : List (ℕ × ℕ)) (pr : ℕ × ℕ) : Option ℕ :=
  specFirstPairIndexFrom gates 0 pr

theorem elookup_append (l1 l2 : List ((ℕ × ℕ) × ℕ)) (pr : ℕ × ℕ) :
    elookup (l1 ++ l2) pr = (elookup l1 pr).or (elookup l2 pr) := by
  induction l1 with
  | nil => rfl
  | cons e rest ih =>
    by_cases h : e.1 = pr
    · simp [elookup, h]
    · simp [elookup, h, ih]

theorem elookup_none_not_key (l : List ((ℕ × ℕ) × ℕ)) (pr : ℕ × ℕ)
    (h : elookup l pr = none) : pr ∉ l.map Prod.fst := by
  induction l with
  | nil => simp
  | cons e rest ih =>
    unfold elookup at h
    by_cases he : e.1 = pr
    · rw [if_pos he] at h
      exact absurd h (by simp)
    · rw [if_neg he] at h
      simp only [List.map_cons, List.mem_cons]
      rintro (h1 | h1)
      · exact he h1.symm
      · exact ih h h1

/-- Every emitted interaction edge carries, as weight, the sequence index
of the first occurrence of its pair — taken from `fi` if the pair was
seen before the suffix, otherwise found inside the suffix. -/
theorem igFirstPass_edge_weight (gates : List (ℕ × ℕ)) :
    ∀ (k : ℕ) (fi : List ((ℕ × ℕ) × ℕ)) (e : ℕ × ℕ × ℕ),
      e ∈ (igFirstPass gates k fi).2 →
      some e.2.2 =
        (elookup fi (sortPair e.1 e.2.1)).or
          (specFirstPairIndexFrom gates k (sortPair e.1 e.2.1)) := by
  induction gates with
  | nil => intro k fi e he; exact absurd he (by simp [igFirstPass])
  | cons ct rest ih =>
    intro k fi e he
    unfold igFirstPass at he
    simp only [List.mem_cons] at he
    rcases he with he | he
    · subst he
      simp only
      rcases hfi : elookup fi (sortPair ct.1 ct.2) with _ | v
      · simp only [Option.isSome_none, Bool.false_eq_true, if_false, Option.none_or]
        have hk : elookup (fi ++ [(sortPair ct.1 ct.2, k)]) (sortPair ct.1 ct.2) = some k := by
          rw [elookup_append, hfi]
          simp [elookup]
        rw [hk]
        simp [specFirstPairIndexFrom]
      · simp only [Option.isSome_some, if_true, Option.or_some]
        rw [hfi]
        simp
    · rcases hfi : elookup fi (sortPair ct.1 ct.2) with _ | v
      · rw [hfi] at he
        simp only [Option.isSome_none, Bool.false_eq_true, if_false] at he
        have h2 := ih (k + 1) (fi ++ [(sortPair ct.1 ct.2, k)]) e he
        by_cases hpr : sortPair e.1 e.2.1 = sortPair ct.1 ct.2
        · rw [hpr] at h2 ⊢
          rw [elookup_append, hfi] at h2
          simp only [elookup, if_pos rfl, Option.none_or] at h2
          rw [hfi]
          simp only [Option.none_or]
          unfold specFirstPairIndexFrom
          rw [if_pos rfl]
          exact h2
        · rw [elookup_append] at h2
          have hsingle : elookup [(sortPair ct.1 ct.2, k)] (sortPair e.1 e.2.1) = none := by
            simp [elookup, Ne.symm, hpr]
          rw [hsingle, Option.or_none] at h2
          unfold specFirstPairIndexFrom
          rw [if_neg (fun hh => hpr hh.symm)]
          exact h2
      · rw [hfi] at he
        simp only [Option.isSome_some, if_true] at he
        have h2 := ih (k + 1) fi e he
        by_cases hpr : sortPair e.1 e.2.1 = sortPair ct.1 ct.2
        · rw [hpr] at h2 ⊢
          rw [hfi] at h2 ⊢
          simp only [Option.or_some] at h2 ⊢
          exact h2
        · unfold specFirstPairIndexFrom
          rw [if_neg (fun hh => hpr hh.symm)]
          exact h2

/-- The guarded edge-adding pass keeps keys unique and never stores a
weight that disagrees with the (consistent) weights carried by the
edges. -/
theorem igAddEdges_spec (F : (ℕ × ℕ) → Option ℕ) :
    ∀ (edges : List (ℕ × ℕ × ℕ)) (g : List ((ℕ × ℕ) × ℕ)),
      (∀ e ∈ edges, some e.2.2 = F (sortPair e.1 e.2.1)) →
      (∀ pr w, elookup g pr = some w → F pr = some w) →
      (g.map Prod.fst).Nodup →
      ((igAddEdges edges g).map Prod.fst).Nodup ∧
        ∀ pr w, elookup (igAddEdges edges g) pr = some w → F pr = some w := by
  intro edges
  induction edges with
  | nil => intro g _ hg hnd; exact ⟨hnd, hg⟩
  | cons e rest ih =>
    intro g hedges hg hnd
    unfold igAddEdges
    rcases hpr0 : elookup g (sortPair e.1 e.2.1) with _ | v
    · simp only [Option.isSome_none, Bool.false_eq_true, if_false]
      refine ih (g ++ [(sortPair e.1 e.2.1, e.2.2)]) ?_ ?_ ?_
      · intro e2 he2
        exact hedges e2 (List.mem_cons_of_mem e he2)
      · intro pr w hw
        rw [elookup_append] at hw
        rcases hgw : elookup g pr with _ | v2
        · rw [hgw, Option.none_or] at hw
          unfold elookup at hw
          by_cases hq : sortPair e.1 e.2.1 = pr
          · rw [if_pos hq] at hw
            cases hw
            rw [← hq]
            exact (hedges e (List.mem_cons_self e rest)).symm
          · rw [if_neg hq] at hw
            exact absurd hw (by simp [elookup])
        · rw [hgw] at hw
          simp only [Option.or_some] at hw
          injection hw with hw
          subst hw
          exact hg pr _ hgw
      · rw [List.map_append]
        simp only [List.map_cons, List.map_nil]
        rw [List.nodup_append]
        refine ⟨hnd, List.nodup_singleton _, ?_⟩
        intro a ha hb
        simp only [List.mem_singleton] at hb
        subst hb
        exact elookup_none_not_key g _ hpr0 ha
    · simp only [Option.isSome_some, if_true]
      refine ih g ?_ hg hnd
      intro e2 he2
      exact hedges e2 (List.mem_cons_of_mem e he2)

/-- C8: in the interaction graph built from the two-qubit stream each
unordered pair appears as at most one edge, and the weight stored for a
pair is the sequence index of the first gate acting on it — later gates
on the same pair never change it. -/
theorem interaction_edge_weight_first (gates : List (ℕ × ℕ)) :
    ((generateInteractionGraph gates).map Prod.fst).Nodup ∧
      ∀ pr w, elookup (generateInteractionGraph gates) pr = some w →
        specFirstPairIndex gates pr = some w := by
  unfold generateInteractionGraph
  refine igAddEdges_spec (specFirstPairIndex gates) (igFirstPass gates 0 []).2 [] ?_ ?_ (by simp)
  · intro e he
    have h := igFirstPass_edge_weight gates 0 [] e he
    simpa [elookup, specFirstPairIndex] using h
  · intro pr w hw
    exact absurd hw (by simp [elookup])

/-- Witness for C8 on a stream with a repeated pair: the pair `(0, 2)`
first occurs at index 0, recurs at index 2, and the edge weight is 0. -/
theorem interaction_edge_weight_first_check :
    ((generateInteractionGraph [(0, 2), (5, 2), (2, 0)]).map Prod.fst).Nodup ∧
      specFirstPairIndex [(0, 2), (5, 2), (2, 0)] (0, 2) = some 0 :=
  ⟨(interaction_edge_weight_first [(0, 2), (5, 2), (2, 0)]).1,
    (interaction_edge_weight_first [(0, 2), (5, 2), (2, 0)]).2 (0, 2) 0 (by decide)⟩

/-- Outcome of the two-qubit application step of `optimize_circuit`. -/
inductive ApplyOutcome where
  | applied (c t : ℕ)
  | reversedDecomp (c t : ℕ)
  | unsupported (kind : String)
  | droppedGate
deriving DecidableEq

/-- The application dispatch of `optimize_circuit` (`unoptswaps.py` lines
160-174): apply the gate if the mapped control and target are adjacent;
`elif` they are adjacent in reversed order, realise a `cx` by the
Hadamard-cx-Hadamard decomposition and raise `ValueError` for any other
kind; when neither test passes the gate falls through unapplied. -/
def applyTwoQubit (hasEdge : ℕ → ℕ → Bool) (kind : String) (mc mt : ℕ) : ApplyOutcome :=
  if hasEdge mc mt then .applied mc mt
  else if hasEdge mt mc then
    if kind = "cx" then .reversedDecomp mt mc else .unsupported kind
  else .droppedGate

/-- C10: with a symmetric `has_edge` (an undirected coupling graph) the
first adjacency branch covers every adjacent case, so the reversed-order
branch — the Hadamard decomposition and the unsupported-gate
`ValueError` — is unreachable for every gate kind and operand pair. -/
theorem reversed_branch_unreachable (hasEdge : ℕ → ℕ → Bool)
    (hsym : ∀ a b, hasEdge a b = hasEdge b a) (kind : String) (mc mt : ℕ) :
    (applyTwoQubit hasEdge kind mc mt = .applied mc mt ∨
        applyTwoQubit hasEdge kind mc mt = .droppedGate) ∧
      (∀ c t, applyTwoQubit hasEdge kind mc mt ≠ .reversedDecomp c t) ∧
      (∀ s, applyTwoQubit hasEdge kind mc mt ≠ .unsupported s) := by
  by_cases h1 : hasEdge mc mt = true
  · simp [applyTwoQubit, h1]
  · have h1' : hasEdge mc mt = false := by
      revert h1
      cases hasEdge mc mt <;> simp
    have h2 : hasEdge mt mc = false := (hsym mt mc).trans h1'
    simp [applyTwoQubit, h1', h2]

/-- Witness for C10 with the symmetric adjacency `a + b = 1` (an edge
between physical qubits 0 and 1): the dispatch applies the gate
directly. -/
theorem reversed_branch_unreachable_check :
    applyTwoQubit (fun a b => decide (a + b = 1)) "cx" 0 1 = .applied 0 1 ∨
      applyTwoQubit (fun a b => decide (a + b = 1)) "cx" 0 1 = .droppedGate :=
  (reversed_branch_unreachable (fun a b => decide (a + b = 1))
    (fun a b => by show decide (a + b = 1) = decide (b + a = 1); rw [Nat.add_comm]) "cx" 0 1).1
